import Mathlib

/-!
Verification of the weekend-planner repository against its specification.

Two components are modelled here, translated directly from the source:

* the Place Ranker: `score_place` and the post-fetch ranking stage of
  `find_best_restaurants` in `src/tools/places.py` (the network call
  `search_cuisine` is replaced by an explicit `places` argument, since the
  ranking pipeline is a pure function of the fetched list);
* the one-shot output sanitizer `_enforce_one_shot_output` in `src/agent.py`
  (Lean name `enforce_one_shot_output`).

Python floats only ever hold exact multiples of 0.5 in the scorer, so scores
are modelled as `ℚ`, on which the arithmetic and comparisons agree exactly
with the float arithmetic of the source. Python strings are modelled as
`String` (places) and `List Char` (sanitizer).
-/

namespace WeekendPlanner

/-! ### Python string primitives -/

/-- Does the second list begin with the first? Helper for the Python
substring test: `leadsWith needle hay`. -/
def leadsWith : List Char → List Char → Bool
  | [], _ => true
  | _ :: _, [] => false
  | c :: cs, d :: ds => c = d && leadsWith cs ds

/-- Python `needle in hay` on character lists: `needle` occurs contiguously. -/
def strOccurs (needle : List Char) : List Char → Bool
  | [] => leadsWith needle []
  | d :: ds => leadsWith needle (d :: ds) || strOccurs needle ds

/-- Python `needle in hay` on strings. -/
def pyIn (needle hay : String) : Bool := strOccurs needle.toList hay.toList

/-- Python `str.lower()`. The table entries are ASCII or CJK, for which
`Char.toLower` agrees with Python's lowercasing. -/
def pyLower (s : String) : String := ⟨s.data.map Char.toLower⟩

/-! ### Place data model (src/tools/places.py)

An OSM element is a JSON object with an optional `tags` sub-dictionary and
optional `lat`/`lon` numbers. Only the tag keys read by the source appear
here; a missing `tags` dictionary is the all-`none` record. Latitude and
longitude are opaque pass-through numbers (no arithmetic is performed on
them), modelled as optional rationals. -/

structure Tags where
  name : Option String
  cuisine : Option String
  addrStreet : Option String
  addrHousenumber : Option String
  openingHours : Option String
  website : Option String
  contactWebsite : Option String
deriving DecidableEq

structure OsmElement where
  tags : Tags
  lat : Option ℚ
  lon : Option ℚ
deriving DecidableEq

/-- The record built for each named place by `find_best_restaurants`. -/
structure PlaceInfo where
  name : String
  cuisine : String
  score : ℚ
  address : String
  openingHours : Option String
  website : Option String
  lat : Option ℚ
  lon : Option ℚ
deriving DecidableEq

/-- The fixed preference-keyword table of `score_place`
(`keyword_map.get(pref, [])`). -/
def keyword_map (pref : String) : List String :=
  if pref = "spicy" then ["sichuan", "szechuan", "chongqing", "spicy"]
  else if pref = "hotpot" then ["hotpot", "hot pot", "火锅"]
  else if pref = "noodles" then ["noodle", "lamian", "ramen"]
  else if pref = "dumplings" then ["dumpling", "jiaozi", "包子", "dim sum"]
  else []

/-- The fixed trusted-brand list of `score_place`. -/
def brands : List String := ["din tai fung", "haidilao"]

/-- Does synonym `kw` occur in the lowercased name or cuisine of `tags`?
(the source's `kw in name or kw in cuisine`). -/
def kwHit (tags : Tags) (kw : String) : Bool :=
  pyIn kw (pyLower (tags.name.getD "")) || pyIn kw (pyLower (tags.cuisine.getD ""))

/-- The accumulated preference bonus of the nested `for pref / for kw` loops:
`+1.5` for every `(pref, kw)` pair whose synonym occurs in the text. -/
def prefBonus (tags : Tags) (preferences : List String) : ℚ :=
  (preferences.map (fun pref =>
    ((keyword_map pref).map (fun kw => if kwHit tags kw then (3/2 : ℚ) else 0)).sum)).sum

/-- `score_place` from src/tools/places.py: base bonus for a named place,
multi-cuisine bonus, preference-synonym bonuses, trusted-brand bonus. -/
def score_place (tags : Tags) (preferences : List String) : ℚ :=
  (if tags.name.isSome then (1 : ℚ) else 0)
  + (if pyIn ";" (pyLower (tags.cuisine.getD "")) || pyIn "," (pyLower (tags.cuisine.getD ""))
      then (1/2 : ℚ) else 0)
  + prefBonus tags preferences
  + (if brands.any (fun b => pyIn b (pyLower (tags.name.getD ""))) then (2 : ℚ) else 0)

example : score_place ⟨some "A", some "sichuan", none, none, none, none, none⟩ ["spicy"] = 5/2 := by
  simp +decide [score_place, prefBonus, keyword_map, kwHit]
  norm_num

/-! ### Python whitespace stripping (used by the address field and the
one-shot sanitizer) -/

/-- Python whitespace for `str.strip` / `str.rstrip` (the characters that
occur in practice; `Char.isWhitespace` covers space, tab, CR, LF, and we add
vertical tab and form feed). -/
def isPySpace (c : Char) : Bool := c.isWhitespace || c.toNat = 11 || c.toNat = 12

/-- Python `str.rstrip()`. -/
def pyRstrip (s : List Char) : List Char := (s.reverse.dropWhile isPySpace).reverse

/-- Python `str.strip()`. -/
def pyStrip (s : List Char) : List Char := pyRstrip (s.dropWhile isPySpace)

/-- Python `str.strip()` on `String`. -/
def pyStripStr (s : String) : String := ⟨pyStrip s.data⟩

/-! ### The ranking stage of `find_best_restaurants` -/

/-- Python `a or b` on two optional strings (`None` and `""` are falsy):
used for `tags.get("website") or tags.get("contact:website")`. -/
def pyOrStr : Option String → Option String → Option String
  | some s, b => if s = "" then b else some s
  | none, b => b

/-- The `place_info` record built for a named element inside the loop of
`find_best_restaurants` (with `nm` the value of `tags["name"]`). -/
def place_info (p : OsmElement) (prefs : List String) (nm : String) : PlaceInfo :=
  { name := nm
  , cuisine := p.tags.cuisine.getD "unknown"
  , score := score_place p.tags prefs
  , address := pyStripStr ((p.tags.addrStreet.getD "") ++ " " ++ (p.tags.addrHousenumber.getD ""))
  , openingHours := p.tags.openingHours
  , website := pyOrStr p.tags.website p.tags.contactWebsite
  , lat := p.lat
  , lon := p.lon }

/-- The `scored` list: the loop over `places` that skips elements whose tags
lack a `"name"` key and builds `place_info` for the rest, in input order. -/
def scoredList (places : List OsmElement) (prefs : List String) : List PlaceInfo :=
  places.filterMap (fun p => p.tags.name.map (fun nm => place_info p prefs nm))

/-- Insert `x` into `l` in front of the first element whose score is not
strictly greater. Together with `sortByScoreDesc` this is the unique stable
descending sort by score, hence extensionally equal to the source's
`scored.sort(key=lambda x: x["score"], reverse=True)` (Python's Timsort is
specified to be stable). -/
def insertDesc (x : PlaceInfo) : List PlaceInfo → List PlaceInfo
  | [] => [x]
  | y :: ys => if x.score < y.score then y :: insertDesc x ys else x :: y :: ys

/-- Stable sort by score descending (see `insertDesc`). -/
def sortByScoreDesc : List PlaceInfo → List PlaceInfo
  | [] => []
  | x :: xs => insertDesc x (sortByScoreDesc xs)

/-- The dedup-and-cap loop of `find_best_restaurants`: `seen` is the set of
names already emitted, `count` is `len(top_results)` so far; a place whose
name was already seen is dropped, and the loop breaks as soon as ten results
have been collected (the cap is the hardcoded literal `10` in the source;
the function has no `limit` parameter). -/
def dedupCapLoop (seen : List String) (count : Nat) : List PlaceInfo → List PlaceInfo
  | [] => []
  | p :: ps =>
    if p.name ∈ seen then
      if 10 ≤ count then [] else dedupCapLoop seen count ps
    else
      p :: (if 10 ≤ count + 1 then [] else dedupCapLoop (p.name :: seen) (count + 1) ps)

/-- `find_best_restaurants` from src/tools/places.py, with the list returned
by the `search_cuisine` network call passed in as `places` and the
`preferences or []` default already applied. -/
def find_best_restaurants (places : List OsmElement) (preferences : List String) :
    List PlaceInfo :=
  dedupCapLoop [] 0 (sortByScoreDesc (scoredList places preferences))

/-! ### The one-shot output sanitizer (src/agent.py, `_enforce_one_shot_output`)

The sanitizer is modelled on `List Char`. Line boundaries are modelled as
`'\n'` (the line separator produced by the agent); Python's `splitlines`
additionally splits on rarer terminators, which does not affect the
properties proved here. -/

/-- Split on `'\n'`, keeping every (possibly empty) segment. -/
def splitOnNl : List Char → List (List Char)
  | [] => [[]]
  | c :: cs =>
    if c = '\n' then [] :: splitOnNl cs
    else
      match splitOnNl cs with
      | [] => [[c]]
      | l :: ls => (c :: l) :: ls

/-- Python `str.splitlines()`: no entry for a trailing line terminator, and
the empty string yields no lines. -/
def pySplitlines (s : List Char) : List (List Char) :=
  if s = [] then []
  else if s.getLast? = some '\n' then (splitOnNl s).dropLast
  else splitOnNl s

/-- The Python idiom `while lines and p(lines[-1]): lines.pop()`. -/
def dropTrailing (p : List Char → Bool) (ls : List (List Char)) : List (List Char) :=
  (ls.reverse.dropWhile p).reverse

/-- Python `s.endswith("?")`. -/
def endsWithQm (s : List Char) : Bool :=
  match s.getLast? with
  | some c => c = '?'
  | none => false

/-- Python `out.replace("?", ".")` (a one-character pattern, so a map). -/
def replaceQm (s : List Char) : List Char := s.map (fun c => if c = '?' then '.' else c)

/-- The fixed message returned when every line was stripped. -/
def default_assumptions : List Char :=
  ("Assumptions: I used reasonable defaults (balanced pace, mid-range budget, and nearby options) and provided a complete weekend plan in one message.").toList

/-- The fixed notice appended when a question mark remains in the body. -/
def assumptions_notice : List Char :=
  ("\n\nAssumptions used: balanced pace, mid-range budget, within ~5–8 km of city center; please check showtimes/reservation availability in your preferred apps.").toList

/-- `_enforce_one_shot_output` from src/agent.py: drop the all-whitespace
tail, drop trailing question lines, and if the remaining text is empty
return the fixed assumptions message; otherwise turn a final `'?'` into a
period (the guarded `re.sub(r"\?\s*$", ".", out)`, where the text has no
trailing whitespace because it was just stripped) and, if a question mark
still occurs anywhere, replace every `'?'` by `'.'` and append the fixed
assumptions notice. -/
def enforce_one_shot_output (text : List Char) : List Char :=
  if text = [] then text
  else
    let lines0 := (pySplitlines text).map pyRstrip
    let lines1 := dropTrailing (fun l => (pyStrip l).isEmpty) lines0
    let lines2 := dropTrailing (fun l => endsWithQm (pyStrip l)) lines1
    let out := pyStrip (List.intercalate ['\n'] lines2)
    if out = [] then default_assumptions
    else
      let out2 := if endsWithQm out then out.dropLast ++ ['.'] else out
      if '?' ∈ out2 then replaceQm out2 ++ assumptions_notice else out2

example :
    enforce_one_shot_output ("Here is the plan.\nDo you want more?").toList =
      ("Here is the plan.").toList := by decide

/-! ### Lemmas about the scorer -/

theorem kwSum_nonneg (tags : Tags) (p : String) :
    0 ≤ ((keyword_map p).map (fun kw => if kwHit tags kw then (3/2 : ℚ) else 0)).sum := by
  apply List.sum_nonneg
  intro x hx
  obtain ⟨kw, _, rfl⟩ := List.mem_map.1 hx
  split <;> norm_num

theorem prefBonus_nonneg (tags : Tags) (l : List String) : 0 ≤ prefBonus tags l := by
  apply List.sum_nonneg
  intro x hx
  obtain ⟨p, _, rfl⟩ := List.mem_map.1 hx
  exact kwSum_nonneg tags p

theorem score_place_nonneg (tags : Tags) (prefs : List String) :
    0 ≤ score_place tags prefs := by
  unfold score_place
  have h := prefBonus_nonneg tags prefs
  apply add_nonneg (add_nonneg (add_nonneg ?_ ?_) h) ?_ <;> (split <;> norm_num)

theorem prefBonus_append (tags : Tags) (l₁ l₂ : List String) :
    prefBonus tags (l₁ ++ l₂) = prefBonus tags l₁ + prefBonus tags l₂ := by
  simp [prefBonus]

theorem score_place_append (tags : Tags) (l : List String) (p : String) :
    score_place tags (l ++ [p]) =
      score_place tags l +
        ((keyword_map p).map (fun kw => if kwHit tags kw then (3/2 : ℚ) else 0)).sum := by
  unfold score_place
  rw [prefBonus_append]
  have : prefBonus tags [p] =
      ((keyword_map p).map (fun kw => if kwHit tags kw then (3/2 : ℚ) else 0)).sum := by
    simp [prefBonus]
  rw [this]; ring

theorem kwSum_eq_count (tags : Tags) (kws : List String) :
    (kws.map (fun kw => if kwHit tags kw then (3/2 : ℚ) else 0)).sum =
      (3/2 : ℚ) * (kws.countP (fun kw => kwHit tags kw) : ℚ) := by
  induction kws with
  | nil => simp
  | cons k ks ih =>
    rw [List.map_cons, List.sum_cons, List.countP_cons, ih]
    by_cases h : kwHit tags k = true
    · simp only [h, if_true]
      push_cast
      ring
    · simp [h]

theorem prefBonus_eq_count (tags : Tags) (prefs : List String) :
    prefBonus tags prefs =
      (3/2 : ℚ) *
        (prefs.map (fun p => ((keyword_map p).countP (fun kw => kwHit tags kw) : ℚ))).sum := by
  induction prefs with
  | nil => simp [prefBonus]
  | cons p l ih =>
    rw [show prefBonus tags (p :: l) =
        ((keyword_map p).map (fun kw => if kwHit tags kw then (3/2 : ℚ) else 0)).sum
          + prefBonus tags l from by simp [prefBonus]]
    rw [ih, kwSum_eq_count, List.map_cons, List.sum_cons]
    ring

theorem kwSum_eq_zero (tags : Tags) (p : String)
    (h : ∀ kw ∈ keyword_map p, kwHit tags kw = false) :
    ((keyword_map p).map (fun kw => if kwHit tags kw then (3/2 : ℚ) else 0)).sum = 0 := by
  rw [List.sum_eq_zero]
  intro x hx
  obtain ⟨kw, hkw, rfl⟩ := List.mem_map.1 hx
  simp [h kw hkw]

/-! ### Claims C1 and C7: the scoring function -/

/-- A place whose name contains two different synonyms of the single
preference keyword "spicy". -/
def c1_tags : Tags := ⟨some "Spicy Sichuan House", none, none, none, none, none, none⟩

/-- C1, counterexample. The claim says a matched preference keyword
contributes `+1.5` exactly once, so this place (base `1.0`, keyword "spicy"
matched) would score `1.0 + 1.5 = 2.5`; the code has no `break` after a
synonym hit and awards `+1.5` for each of the two matching synonyms
("spicy" and "sichuan"), giving `4.0`. -/
theorem C1_counterexample :
    score_place c1_tags ["spicy"] = 4 ∧ ¬ score_place c1_tags ["spicy"] = 1 + 3/2 := by
  have h : score_place c1_tags ["spicy"] = 4 := by
    simp +decide [c1_tags, score_place, prefBonus, keyword_map, kwHit]
    norm_num
  refine ⟨h, ?_⟩
  rw [h]; norm_num

/-- C1, amended: the scoring function awards `+1.5` once per `(preference
keyword, synonym)` pair whose synonym substring occurs (case-insensitively)
in the place's name or cuisine — i.e. `1.5` times the number of matching
synonyms of each keyword, not at most once per keyword. -/
theorem C1_score_adds_per_synonym (tags : Tags) (prefs : List String) :
    score_place tags prefs =
      score_place tags [] +
        (3/2 : ℚ) *
          (prefs.map (fun p => ((keyword_map p).countP (fun kw => kwHit tags kw) : ℚ))).sum := by
  have hb : prefBonus tags ([] : List String) = 0 := by simp [prefBonus]
  unfold score_place
  rw [prefBonus_eq_count, hb]
  ring

/-- C7: the score is non-negative; appending a preference keyword never
decreases any place's score; and a place `b` that does not match the new
keyword (no synonym of `p` occurs in its text) cannot overtake a place `a`
that scored at least as high before the keyword was appended — the scoring
function is additive over independent signals, never subtractive. -/
theorem C7_score_monotone (a : Tags) (prefs : List String) (p : String) (b : Tags)
    (hb : ∀ kw ∈ keyword_map p, kwHit b kw = false)
    (hle : score_place b prefs ≤ score_place a prefs) :
    0 ≤ score_place a prefs ∧
      score_place a prefs ≤ score_place a (prefs ++ [p]) ∧
      score_place b (prefs ++ [p]) ≤ score_place a (prefs ++ [p]) := by
  refine ⟨score_place_nonneg a prefs, ?_, ?_⟩
  · rw [score_place_append]
    have := kwSum_nonneg a p
    linarith
  · rw [score_place_append, score_place_append, kwSum_eq_zero b p hb]
    have := kwSum_nonneg a p
    linarith

def c7_spicy_tags : Tags := ⟨some "Sichuan Bistro", none, none, none, none, none, none⟩

def c7_plain_tags : Tags := ⟨some "Pasta Bar", some "italian", none, none, none, none, none⟩

/-- C7, witness: `C7_score_monotone` applied to a concrete Sichuan place,
a concrete Italian place that matches no synonym of "spicy", and the
preference list `[]` extended by "spicy". -/
theorem C7_witness :
    0 ≤ score_place c7_spicy_tags [] ∧
      score_place c7_spicy_tags [] ≤ score_place c7_spicy_tags ([] ++ ["spicy"]) ∧
      score_place c7_plain_tags ([] ++ ["spicy"]) ≤ score_place c7_spicy_tags ([] ++ ["spicy"]) :=
  C7_score_monotone c7_spicy_tags [] "spicy" c7_plain_tags (by decide)
    (by simp +decide [c7_spicy_tags, c7_plain_tags, score_place, prefBonus, keyword_map, kwHit])

/-! ### Lemmas about the stable sort -/

theorem mem_insertDesc {a x : PlaceInfo} {l : List PlaceInfo} :
    a ∈ insertDesc x l ↔ a = x ∨ a ∈ l := by
  induction l with
  | nil => simp [insertDesc]
  | cons y ys ih =>
    simp only [insertDesc]
    split
    · simp only [List.mem_cons, ih]
      tauto
    · simp only [List.mem_cons]

theorem perm_insertDesc (x : PlaceInfo) (l : List PlaceInfo) :
    List.Perm (insertDesc x l) (x :: l) := by
  induction l with
  | nil => exact List.Perm.refl _
  | cons y ys ih =>
    simp only [insertDesc]
    split
    · exact (ih.cons y).trans (List.Perm.swap x y ys)
    · exact List.Perm.refl _

theorem perm_sortByScoreDesc (l : List PlaceInfo) : List.Perm (sortByScoreDesc l) l := by
  induction l with
  | nil => exact List.Perm.refl _
  | cons x xs ih =>
    exact (perm_insertDesc x (sortByScoreDesc xs)).trans (ih.cons x)

theorem pairwise_insertDesc {x : PlaceInfo} {l : List PlaceInfo}
    (h : l.Pairwise (fun a b => b.score ≤ a.score)) :
    (insertDesc x l).Pairwise (fun a b => b.score ≤ a.score) := by
  induction l with
  | nil => simp [insertDesc]
  | cons y ys ih =>
    obtain ⟨hy, hys⟩ := List.pairwise_cons.1 h
    simp only [insertDesc]
    split
    · next hlt =>
      refine List.pairwise_cons.2 ⟨?_, ih hys⟩
      intro b hb
      rcases mem_insertDesc.1 hb with rfl | hb
      · exact le_of_lt hlt
      · exact hy b hb
    · next hge =>
      refine List.pairwise_cons.2 ⟨?_, h⟩
      intro b hb
      rcases List.mem_cons.1 hb with rfl | hb
      · exact le_of_not_lt hge
      · exact le_trans (hy b hb) (le_of_not_lt hge)

theorem sorted_sortByScoreDesc (l : List PlaceInfo) :
    (sortByScoreDesc l).Pairwise (fun a b => b.score ≤ a.score) := by
  induction l with
  | nil => simp [sortByScoreDesc]
  | cons x xs ih => exact pairwise_insertDesc ih

/-- Inserting an element does not disturb the subsequence of entries having
any fixed score `c`, except to put `x` in front of it when `x.score = c`. -/
theorem filter_insertDesc (c : ℚ) (x : PlaceInfo) (l : List PlaceInfo) :
    (insertDesc x l).filter (fun p => decide (p.score = c)) =
      if x.score = c then x :: l.filter (fun p => decide (p.score = c))
      else l.filter (fun p => decide (p.score = c)) := by
  induction l with
  | nil =>
    by_cases hx : x.score = c <;> simp [insertDesc, hx]
  | cons y ys ih =>
    simp only [insertDesc]
    split
    · next hlt =>
      by_cases hy : y.score = c
      · have hx : ¬ x.score = c := by
          intro hx
          rw [hx, hy] at hlt
          exact lt_irrefl c hlt
        simp [hy, hx, ih]
      · by_cases hx : x.score = c <;> simp [hy, hx, ih]
    · by_cases hx : x.score = c <;> by_cases hy : y.score = c <;> simp [hx, hy]

/-- Stability of the sort: for every score value `c`, the entries scoring
exactly `c` appear in the sorted list in their original relative order. -/
theorem filter_sortByScoreDesc (c : ℚ) (l : List PlaceInfo) :
    (sortByScoreDesc l).filter (fun p => decide (p.score = c)) =
      l.filter (fun p => decide (p.score = c)) := by
  induction l with
  | nil => simp [sortByScoreDesc]
  | cons x xs ih =>
    simp only [sortByScoreDesc]
    rw [filter_insertDesc, ih]
    by_cases hx : x.score = c <;> simp [hx]

theorem insertDesc_of_le {x : PlaceInfo} {l : List PlaceInfo}
    (h : ∀ y ∈ l, y.score ≤ x.score) : insertDesc x l = x :: l := by
  cases l with
  | nil => rfl
  | cons y ys =>
    simp only [insertDesc]
    rw [if_neg (not_lt.2 (h y (List.mem_cons_self y ys)))]

theorem sortByScoreDesc_of_sorted {l : List PlaceInfo}
    (h : l.Pairwise (fun a b => b.score ≤ a.score)) : sortByScoreDesc l = l := by
  induction l with
  | nil => rfl
  | cons x xs ih =>
    obtain ⟨hx, hxs⟩ := List.pairwise_cons.1 h
    simp only [sortByScoreDesc]
    rw [ih hxs]
    exact insertDesc_of_le hx

/-! ### Lemmas about the dedup-and-cap loop -/

theorem name_not_mem_seen {seen : List String} {count : Nat} {l : List PlaceInfo}
    {r : PlaceInfo} (h : r ∈ dedupCapLoop seen count l) : r.name ∉ seen := by
  induction l generalizing seen count with
  | nil => simp [dedupCapLoop] at h
  | cons p ps ih =>
    simp only [dedupCapLoop] at h
    split at h
    · split at h
      · simp at h
      · exact ih h
    · next hnot =>
      rcases List.mem_cons.1 h with rfl | h2
      · exact hnot
      · split at h2
        · simp at h2
        · intro hs
          exact ih h2 (List.mem_cons_of_mem _ hs)

theorem dedupCapLoop_sublist (seen : List String) (count : Nat) (l : List PlaceInfo) :
    List.Sublist (dedupCapLoop seen count l) l := by
  induction l generalizing seen count with
  | nil => simp [dedupCapLoop]
  | cons p ps ih =>
    simp only [dedupCapLoop]
    split
    · split
      · exact List.nil_sublist _
      · exact (ih seen count).cons p
    · split
      · exact (List.nil_sublist ps).cons₂ p
      · exact (ih (p.name :: seen) (count + 1)).cons₂ p

/-- Every element the loop keeps is the first entry of the remaining list
whose name is new: everything before it in the scanned list either has a
different name or a name that was already seen. -/
theorem dedupCapLoop_first {seen : List String} {count : Nat} {l : List PlaceInfo}
    {r : PlaceInfo} (h : r ∈ dedupCapLoop seen count l) :
    ∃ l₁ l₂, l = l₁ ++ r :: l₂ ∧ ∀ q ∈ l₁, q.name ∈ seen ∨ q.name ≠ r.name := by
  induction l generalizing seen count with
  | nil => simp [dedupCapLoop] at h
  | cons p ps ih =>
    simp only [dedupCapLoop] at h
    split at h
    · next hin =>
      split at h
      · simp at h
      · obtain ⟨l₁, l₂, rfl, hq⟩ := ih h
        refine ⟨p :: l₁, l₂, rfl, ?_⟩
        intro q hq'
        rcases List.mem_cons.1 hq' with rfl | hq''
        · exact Or.inl hin
        · exact hq q hq''
    · next hnin =>
      rcases List.mem_cons.1 h with rfl | h2
      · exact ⟨[], ps, rfl, by simp⟩
      · split at h2
        · simp at h2
        · have hname := name_not_mem_seen h2
          obtain ⟨l₁, l₂, rfl, hq⟩ := ih h2
          refine ⟨p :: l₁, l₂, rfl, ?_⟩
          intro q hq'
          rcases List.mem_cons.1 hq' with rfl | hq''
          · refine Or.inr ?_
            intro he
            exact hname (by rw [← he]; exact List.mem_cons_self _ _)
          · rcases hq q hq'' with hs | hne
            · rcases List.mem_cons.1 hs with he | hs'
              · refine Or.inr ?_
                intro h'
                rw [he] at h'
                exact hname (by rw [← h']; exact List.mem_cons_self _ _)
              · exact Or.inl hs'
            · exact Or.inr hne

theorem dedupCapLoop_names_pairwise (seen : List String) (count : Nat) (l : List PlaceInfo) :
    (dedupCapLoop seen count l).Pairwise (fun a b => a.name ≠ b.name) := by
  induction l generalizing seen count with
  | nil => simp [dedupCapLoop]
  | cons p ps ih =>
    simp only [dedupCapLoop]
    split
    · split
      · exact List.Pairwise.nil
      · exact ih seen count
    · split
      · simp
      · refine List.pairwise_cons.2 ⟨?_, ih (p.name :: seen) (count + 1)⟩
        intro b hb
        have hb' := name_not_mem_seen hb
        intro he
        exact hb' (by rw [← he]; exact List.mem_cons_self _ _)

theorem dedupCapLoop_length (l : List PlaceInfo) :
    ∀ seen count, count < 10 → (dedupCapLoop seen count l).length + count ≤ 10 := by
  induction l with
  | nil =>
    intro seen count h
    simp only [dedupCapLoop, List.length_nil]
    omega
  | cons p ps ih =>
    intro seen count hc
    simp only [dedupCapLoop]
    split
    · split
      · simp only [List.length_nil]; omega
      · exact ih seen count hc
    · split
      · next h10 => simp only [List.length_cons, List.length_nil]; omega
      · next h10 =>
        have := ih (p.name :: seen) (count + 1) (by omega)
        simp only [List.length_cons]
        omega

/-- On a list whose names are pairwise distinct and unseen, and which is
short enough not to hit the cap, the loop is the identity. -/
theorem dedupCapLoop_id {l : List PlaceInfo} :
    ∀ seen count, (∀ p ∈ l, p.name ∉ seen) →
      l.Pairwise (fun a b => a.name ≠ b.name) → count + l.length ≤ 10 →
      dedupCapLoop seen count l = l := by
  induction l with
  | nil => intro seen count _ _ _; rfl
  | cons p ps ih =>
    intro seen count hseen hpw hlen
    obtain ⟨hp, hps⟩ := List.pairwise_cons.1 hpw
    simp only [dedupCapLoop]
    rw [if_neg (hseen p (List.mem_cons_self p ps))]
    by_cases h10 : 10 ≤ count + 1
    · have hnil : ps = [] := by
        cases ps with
        | nil => rfl
        | cons q qs =>
          exfalso
          simp only [List.length_cons] at hlen
          omega
      rw [if_pos h10, hnil]
    · rw [if_neg h10]
      congr 1
      apply ih (p.name :: seen) (count + 1) ?_ hps ?_
      · intro q hq hmem
        rcases List.mem_cons.1 hmem with he | hs
        · exact hp q hq he.symm
        · exact hseen q (List.mem_cons_of_mem p hq) hs
      · simp only [List.length_cons] at hlen
        omega

/-! ### Helper lemmas on find?, filter and the scored list -/

theorem find?_eq_head?_filter (p : PlaceInfo → Bool) (l : List PlaceInfo) :
    l.find? p = (l.filter p).head? := by
  induction l with
  | nil => rfl
  | cons a t ih =>
    cases h : p a with
    | true =>
      rw [List.find?_cons_of_pos _ h, List.filter_cons_of_pos h]
      rfl
    | false =>
      rw [List.find?_cons_of_neg _ (by simp [h]), List.filter_cons_of_neg (by simp [h])]
      exact ih

theorem find?_append_of_not {l₁ l₂ : List PlaceInfo} {r : PlaceInfo} {p : PlaceInfo → Bool}
    (h : ∀ q ∈ l₁, p q = false) (hr : p r = true) :
    (l₁ ++ r :: l₂).find? p = some r := by
  induction l₁ with
  | nil => simp [List.find?_cons, hr]
  | cons a t ih =>
    have ha := h a (List.mem_cons_self a t)
    simp only [List.cons_append, List.find?_cons, ha]
    exact ih (fun q hq => h q (List.mem_cons_of_mem a hq))

theorem scoredList_filter_named (places : List OsmElement) (prefs : List String) :
    scoredList (places.filter (fun p => p.tags.name.isSome)) prefs =
      scoredList places prefs := by
  induction places with
  | nil => rfl
  | cons p ps ih =>
    simp only [scoredList, List.filter_cons] at ih ⊢
    cases h : p.tags.name with
    | none => simp [h, List.filterMap_cons, ih]
    | some nm => simp [h, List.filterMap_cons, ih]

theorem scoredList_nil_of_unnamed {places : List OsmElement} {prefs : List String}
    (h : ∀ p ∈ places, p.tags.name = none) : scoredList places prefs = [] := by
  induction places with
  | nil => rfl
  | cons p ps ih =>
    have ht := ih (fun q hq => h q (List.mem_cons_of_mem p hq))
    simp only [scoredList, List.filterMap_cons, h p (List.mem_cons_self p ps),
      Option.map_none']
    simpa [scoredList] using ht

theorem mem_scoredList {r : PlaceInfo} {places : List OsmElement} {prefs : List String} :
    r ∈ scoredList places prefs ↔
      ∃ p ∈ places, ∃ nm, p.tags.name = some nm ∧ r = place_info p prefs nm := by
  simp only [scoredList, List.mem_filterMap]
  constructor
  · rintro ⟨p, hp, he⟩
    cases h : p.tags.name with
    | none => rw [h] at he; simp at he
    | some nm =>
      rw [h] at he
      simp only [Option.map_some', Option.some.injEq] at he
      exact ⟨p, hp, nm, h, he.symm⟩
  · rintro ⟨p, hp, nm, h, rfl⟩
    exact ⟨p, hp, by rw [h]; rfl⟩

/-! ### Claim C2: concrete ranking scenario -/

def c2_place_a : OsmElement := ⟨⟨some "A", some "sichuan", none, none, none, none, none⟩, none, none⟩

def c2_place_b : OsmElement := ⟨⟨some "B", some "italian", none, none, none, none, none⟩, none, none⟩

/-- C2: for places `[A(sichuan), B(italian), A(sichuan)]`, preferences
`["spicy"]` and the (hardcoded) cap of ten, the ranking returns exactly
`[A (score 2.5), B (score 1.0)]`: the duplicate `A` is dropped and `A`
ranks above `B`. -/
theorem C2_concrete_scenario :
    find_best_restaurants [c2_place_a, c2_place_b, c2_place_a] ["spicy"] =
      [⟨"A", "sichuan", 5/2, "", none, none, none, none⟩,
       ⟨"B", "italian", 1, "", none, none, none, none⟩] := by
  have hA : score_place ⟨some "A", some "sichuan", none, none, none, none, none⟩ ["spicy"]
      = 5/2 := by
    simp +decide [score_place, prefBonus, keyword_map, kwHit]
    norm_num
  have hB : score_place ⟨some "B", some "italian", none, none, none, none, none⟩ ["spicy"]
      = 1 := by
    simp +decide [score_place, prefBonus, keyword_map, kwHit]
  have heA : place_info c2_place_a ["spicy"] "A" =
      ⟨"A", "sichuan", 5/2, "", none, none, none, none⟩ := by
    simp only [place_info, c2_place_a]
    simp +decide [PlaceInfo.mk.injEq]
    exact hA
  have heB : place_info c2_place_b ["spicy"] "B" =
      ⟨"B", "italian", 1, "", none, none, none, none⟩ := by
    simp only [place_info, c2_place_b]
    simp +decide [PlaceInfo.mk.injEq]
    exact hB
  have hs : scoredList [c2_place_a, c2_place_b, c2_place_a] ["spicy"] =
      [place_info c2_place_a ["spicy"] "A", place_info c2_place_b ["spicy"] "B",
        place_info c2_place_a ["spicy"] "A"] := rfl
  rw [find_best_restaurants, hs, heA, heB]
  have hsort : sortByScoreDesc
      [(⟨"A", "sichuan", 5/2, "", none, none, none, none⟩ : PlaceInfo),
        ⟨"B", "italian", 1, "", none, none, none, none⟩,
        ⟨"A", "sichuan", 5/2, "", none, none, none, none⟩] =
      [⟨"A", "sichuan", 5/2, "", none, none, none, none⟩,
        ⟨"A", "sichuan", 5/2, "", none, none, none, none⟩,
        ⟨"B", "italian", 1, "", none, none, none, none⟩] := by
    norm_num [sortByScoreDesc, insertDesc]
  rw [hsort]
  simp +decide [dedupCapLoop]

/-! ### Claims C3 and C4: deduplication and sort order -/

/-- C3: the ranked output has at most one record per exact name; because the
dedup loop runs after the descending stable sort, the record kept for a name
scores at least as high as every same-named scored record, and it is the
earliest record in input order among the same-named records attaining that
score (`scoredList` lists the named places in input order, and `find?`
returns the first match). -/
theorem C3_dedup_keeps_best (places : List OsmElement) (prefs : List String) :
    (find_best_restaurants places prefs).Pairwise (fun a b => a.name ≠ b.name) ∧
    (∀ r ∈ find_best_restaurants places prefs,
      ∀ p ∈ scoredList places prefs, p.name = r.name → p.score ≤ r.score) ∧
    (∀ r ∈ find_best_restaurants places prefs,
      (scoredList places prefs).find?
        (fun p => decide (p.name = r.name ∧ p.score = r.score)) = some r) := by
  refine ⟨dedupCapLoop_names_pairwise _ _ _, ?_, ?_⟩
  · intro r hr p hp hname
    unfold find_best_restaurants at hr
    obtain ⟨l₁, l₂, hsplit, hl₁⟩ := dedupCapLoop_first hr
    have hsorted := sorted_sortByScoreDesc (scoredList places prefs)
    rw [hsplit] at hsorted
    have hpmem : p ∈ sortByScoreDesc (scoredList places prefs) :=
      (perm_sortByScoreDesc _).mem_iff.2 hp
    rw [hsplit] at hpmem
    rcases List.mem_append.1 hpmem with hp1 | hp2
    · rcases hl₁ p hp1 with hs | hne
      · simp at hs
      · exact absurd hname hne
    · rcases List.mem_cons.1 hp2 with rfl | hp3
      · exact le_refl _
      · exact (List.pairwise_cons.1 (List.pairwise_append.1 hsorted).2.1).1 p hp3
  · intro r hr
    unfold find_best_restaurants at hr
    obtain ⟨l₁, l₂, hsplit, hl₁⟩ := dedupCapLoop_first hr
    have hl₁' : ∀ q ∈ l₁, q.name ≠ r.name := by
      intro q hq
      rcases hl₁ q hq with hs | hne
      · simp at hs
      · exact hne
    have hfind : (sortByScoreDesc (scoredList places prefs)).find?
        (fun p => decide (p.name = r.name ∧ p.score = r.score)) = some r := by
      rw [hsplit]
      apply find?_append_of_not
      · intro q hq
        simp only [decide_eq_false_iff_not]
        rintro ⟨h1, _⟩
        exact hl₁' q hq h1
      · simp
    have h1 : ∀ l : List PlaceInfo,
        l.filter (fun p => decide (p.name = r.name ∧ p.score = r.score)) =
          (l.filter (fun p => decide (p.score = r.score))).filter
            (fun p => decide (p.name = r.name)) := by
      intro l
      rw [List.filter_filter]
      apply List.filter_congr
      intro a _
      exact Bool.decide_and _ _
    have hfe : (sortByScoreDesc (scoredList places prefs)).filter
          (fun p => decide (p.name = r.name ∧ p.score = r.score)) =
        (scoredList places prefs).filter
          (fun p => decide (p.name = r.name ∧ p.score = r.score)) := by
      rw [h1, h1, filter_sortByScoreDesc]
    rw [find?_eq_head?_filter, hfe, ← find?_eq_head?_filter] at hfind
    exact hfind

def c3_pA : OsmElement := ⟨⟨some "A", some "sichuan", none, none, none, none, none⟩, none, none⟩

/-- C3, witness: `C3_dedup_keeps_best` applied to the singleton input
`[c3_pA]`, whose ranked output is its single scored record. -/
theorem C3_witness :
    (place_info c3_pA ["spicy"] "A").score ≤ (place_info c3_pA ["spicy"] "A").score :=
  (C3_dedup_keeps_best [c3_pA] ["spicy"]).2.1 (place_info c3_pA ["spicy"] "A")
    (List.mem_singleton.2 rfl) (place_info c3_pA ["spicy"] "A")
    (List.mem_singleton.2 rfl) rfl

/-- C4: the ranked output is sorted by score descending, and for every score
value `c` the output records scoring `c` form a subsequence of the scored
input records scoring `c` taken in input order — i.e. equal-score places
keep their relative input order (stable tie-break). -/
theorem C4_sorted_and_stable (places : List OsmElement) (prefs : List String) :
    (find_best_restaurants places prefs).Pairwise (fun a b => b.score ≤ a.score) ∧
    ∀ c : ℚ, List.Sublist
        ((find_best_restaurants places prefs).filter (fun p => decide (p.score = c)))
        ((scoredList places prefs).filter (fun p => decide (p.score = c))) := by
  constructor
  · exact List.Pairwise.sublist (dedupCapLoop_sublist _ _ _) (sorted_sortByScoreDesc _)
  · intro c
    have h1 := (dedupCapLoop_sublist [] 0 (sortByScoreDesc (scoredList places prefs))).filter
      (fun p => decide (p.score = c))
    rw [filter_sortByScoreDesc] at h1
    exact h1

/-! ### Claim C5: unnamed places are excluded -/

/-- C5: records lacking a name never influence the ranked output (the output
equals the output on the name-bearing sublist), and an input consisting only
of unnamed records yields the empty output regardless of how well their
cuisine matches the preferences. -/
theorem C5_unnamed_excluded (places : List OsmElement) (prefs : List String) :
    find_best_restaurants places prefs =
      find_best_restaurants (places.filter (fun p => p.tags.name.isSome)) prefs ∧
    ((∀ p ∈ places, p.tags.name = none) → find_best_restaurants places prefs = []) := by
  constructor
  · unfold find_best_restaurants
    rw [scoredList_filter_named]
  · intro h
    unfold find_best_restaurants
    rw [scoredList_nil_of_unnamed h]
    rfl

def c5_unnamed : OsmElement :=
  ⟨⟨none, some "sichuan;hotpot;noodle;dumpling", none, none, none, none, none⟩, none, none⟩

/-- C5, witness: an unnamed place whose cuisine matches every preference
keyword is still excluded. -/
theorem C5_witness :
    find_best_restaurants [c5_unnamed] ["spicy", "hotpot", "noodles", "dumplings"] = [] :=
  (C5_unnamed_excluded [c5_unnamed] ["spicy", "hotpot", "noodles", "dumplings"]).2 (by decide)

/-! ### Claim C6: the output cap -/

/-- C6, amended: `find_best_restaurants` takes no `limit` parameter; the cap
is the hardcoded literal `10`, and every output has length at most ten. -/
theorem C6_cap_is_hardcoded_ten (places : List OsmElement) (prefs : List String) :
    (find_best_restaurants places prefs).length ≤ 10 := by
  have := dedupCapLoop_length (sortByScoreDesc (scoredList places prefs)) [] 0 (by omega)
  unfold find_best_restaurants
  omega

def c6_place : OsmElement := ⟨⟨some "A", none, none, none, none, none, none⟩, none, none⟩

/-- C6, counterexample. The claim asserts the ranking operation takes a
`limit` parameter and returns the empty sequence whenever `limit ≤ 0`; the
source function has no such parameter (the cap is the hardcoded `10`), so no
supplied limit can influence the result: on the one-place input below the
output is nonempty of length one, not the empty sequence the claim requires
for `limit = 0`. -/
theorem C6_counterexample :
    find_best_restaurants [c6_place] [] ≠ [] ∧
      (find_best_restaurants [c6_place] []).length = 1 := by
  have h : find_best_restaurants [c6_place] [] = [place_info c6_place [] "A"] := rfl
  exact ⟨by rw [h]; exact List.cons_ne_nil _ _, by rw [h]; rfl⟩

/-! ### Claim C8: idempotence of the ranking stage -/

/-- C8: applying the ranking stage (stable sort by score, dedup by name, cap
at ten) to a list that is already sorted by score descending, already
deduplicated by name, and already within the cap returns the list unchanged;
in particular re-ranking the output of `find_best_restaurants` is the
identity. (Feeding output records back through the scoring stage is not
type-compatible in the source — the output dictionaries have no `tags` key —
so idempotence is a statement about the ranking stage.) -/
theorem C8_rank_idempotent :
    (∀ l : List PlaceInfo,
      l.Pairwise (fun a b => b.score ≤ a.score) →
      l.Pairwise (fun a b => a.name ≠ b.name) →
      l.length ≤ 10 →
      dedupCapLoop [] 0 (sortByScoreDesc l) = l) ∧
    (∀ (places : List OsmElement) (prefs : List String),
      dedupCapLoop [] 0 (sortByScoreDesc (find_best_restaurants places prefs)) =
        find_best_restaurants places prefs) := by
  have main : ∀ l : List PlaceInfo,
      l.Pairwise (fun a b => b.score ≤ a.score) →
      l.Pairwise (fun a b => a.name ≠ b.name) →
      l.length ≤ 10 →
      dedupCapLoop [] 0 (sortByScoreDesc l) = l := by
    intro l hsorted hnames hlen
    rw [sortByScoreDesc_of_sorted hsorted]
    exact dedupCapLoop_id [] 0 (by simp) hnames (by omega)
  refine ⟨main, ?_⟩
  intro places prefs
  apply main
  · exact List.Pairwise.sublist (dedupCapLoop_sublist _ _ _) (sorted_sortByScoreDesc _)
  · exact dedupCapLoop_names_pairwise _ _ _
  · have := dedupCapLoop_length (sortByScoreDesc (scoredList places prefs)) [] 0 (by omega)
    unfold find_best_restaurants
    omega

def c8_list : List PlaceInfo :=
  [⟨"A", "sichuan", 5/2, "", none, none, none, none⟩,
   ⟨"B", "italian", 1, "", none, none, none, none⟩]

/-- C8, witness: `C8_rank_idempotent` applied to a concrete two-element
ranked, deduplicated, capped list. -/
theorem C8_witness : dedupCapLoop [] 0 (sortByScoreDesc c8_list) = c8_list :=
  C8_rank_idempotent.1 c8_list
    (by norm_num [c8_list, List.pairwise_cons])
    (by simp +decide [c8_list, List.pairwise_cons])
    (by norm_num [c8_list])

/-! ### Claims C9 and C10: the one-shot output sanitizer -/

theorem qm_not_mem_replaceQm (s : List Char) : '?' ∉ replaceQm s := by
  intro h
  obtain ⟨c, _, hc⟩ := List.mem_map.1 h
  by_cases h' : c = '?'
  · rw [if_pos h'] at hc
    exact absurd hc (by decide)
  · rw [if_neg h'] at hc
    exact h' hc

theorem qm_not_mem_final (out2 : List Char) :
    '?' ∉ (if '?' ∈ out2 then replaceQm out2 ++ assumptions_notice else out2) := by
  split
  · intro hmem
    rcases List.mem_append.1 hmem with h1 | h2
    · exact qm_not_mem_replaceQm _ h1
    · exact absurd h2 (by decide)
  · next hout => exact hout

theorem final_ne_nil {out2 : List Char} (h2 : out2 ≠ []) :
    (if '?' ∈ out2 then replaceQm out2 ++ assumptions_notice else out2) ≠ [] := by
  split
  · intro he
    rcases List.append_eq_nil.1 he with ⟨_, hn⟩
    exact absurd hn (by decide)
  · exact h2

/-- C9, amended: the sanitizer's output never contains a literal question
mark — trailing question lines are stripped, a final residual `'?'` becomes
a period, remaining question marks are all replaced by periods — but the
fixed assumptions notice is appended only when a question mark survives into
the body (not whenever question content was neutralized; see the
counterexample). -/
theorem C9_no_question_mark (text : List Char) :
    '?' ∉ enforce_one_shot_output text := by
  simp only [enforce_one_shot_output]
  split
  · next h => rw [h]; exact List.not_mem_nil _
  · split
    · exact (by decide : '?' ∉ default_assumptions)
    · exact qm_not_mem_final _

def c9w_input : List Char := ("Plan: movie at 7, dinner at 9?").toList

/-- C9, witness: `C9_no_question_mark` applied to a concrete input ending in
a question mark. -/
theorem C9_witness : '?' ∉ enforce_one_shot_output c9w_input :=
  C9_no_question_mark c9w_input

def c9_input : List Char := ("Here is the plan.\nDo you want more?").toList

/-- C9, counterexample. The claim says the fixed assumptions-used notice is
appended whenever question content had to be neutralized; here the trailing
question line "Do you want more?" is stripped (so the output differs from
the input), yet the output is exactly the first line with no notice
appended. -/
theorem C9_counterexample :
    enforce_one_shot_output c9_input = ("Here is the plan.").toList ∧
      enforce_one_shot_output c9_input ≠ c9_input ∧
      strOccurs assumptions_notice (enforce_one_shot_output c9_input) = false := by
  exact ⟨by decide, by decide, by decide⟩

/-- C10: a non-empty input always produces a non-empty output; in
particular an input whose every line is a question (here all lines get
stripped) yields the fixed non-empty assumptions message. -/
theorem C10_nonempty_output :
    (∀ text : List Char, text ≠ [] → enforce_one_shot_output text ≠ []) ∧
      enforce_one_shot_output (("Is this good?").toList) = default_assumptions := by
  constructor
  · intro text h
    simp only [enforce_one_shot_output]
    rw [if_neg h]
    split
    · exact (by decide : default_assumptions ≠ [])
    · next hout =>
      apply final_ne_nil
      split
      · simp
      · exact hout
  · decide

/-- C10, witness: the first part of `C10_nonempty_output` applied to a
concrete non-empty input. -/
theorem C10_witness :
    ("Hi?").toList ≠ ([] : List Char) ∧ enforce_one_shot_output (("Hi?").toList) ≠ [] :=
  ⟨by decide, C10_nonempty_output.1 _ (by decide)⟩

end WeekendPlanner
